import Mathlib

/-!
Verification of the core of the `wav-gen` waveform generator.

The development shallowly embeds the signal-generation core of
`src/main.rs`: the sine generator `gen_sine_wave`, the sweep generator
`gen_sweep_wave`, the harmonic superposition `gen_harmonics`, the
amplitude normaliser `normalise_harmonics`, the sample-count resolution
of the `Sine` subcommand, and the `WavGenError` type of `src/error.rs`.
The source's `f32` arithmetic is modelled over the reals; the `as`
casts from floats to machine integers are modelled by truncation toward
zero with the saturation Rust gives those casts.  Buffers of `i16`
samples are lists of integers.
-/

namespace WavGen

noncomputable section

/-- Truncation of a real number toward zero, the rounding direction of
every Rust float-to-integer `as` cast in the source. -/
def truncTZ (x : ℝ) : ℤ := if 0 ≤ x then ⌊x⌋ else -⌊-x⌋

/-- The `as i16` cast applied to each computed sample (src/main.rs line
330 and 365): truncation toward zero, saturating at the `i16` bounds. -/
def i16OfReal (x : ℝ) : ℤ := max (-32768) (min 32767 (truncTZ x))

/-- The `as u16` cast applied to each harmonic's effective volume
(src/main.rs lines 391 and 399): truncation toward zero, saturating at
the `u16` bounds. -/
def u16OfReal (x : ℝ) : ℕ := min 65535 (truncTZ x).toNat

/-- The `as u32` cast applied to each harmonic's frequency
(src/main.rs lines 389 and 397): truncation toward zero, saturating at
the `u32` bounds. -/
def u32OfReal (x : ℝ) : ℕ := min 4294967295 (truncTZ x).toNat

/-- `struct Harmonic` (src/main.rs lines 202-205): a frequency in hertz
and a relative amplitude, both `f32` in the source. -/
structure Harmonic where
  frequency : ℝ
  amplitude : ℝ

/-- `enum WavGenError` (src/error.rs lines 5-11 and src/main.rs lines
416-422); paths are modelled as strings. -/
inductive WavGenError where
  | ReadError (path : String)
  | WriteError (path : String)
  | CreateError (path : String)
  | HarmonicParseError (line : ℕ)
  | NoHarmonics
  deriving DecidableEq

/-- `enum OutputType` (src/main.rs lines 193-197). -/
inductive OutputType where
  | Wav
  | Rust
  deriving DecidableEq

/-- The sample value pushed for loop index `t` of `gen_sine_wave`
(src/main.rs lines 329-330): the phase is
`(t as f32 * 2. * PI * frequency as f32) / sampling_rate as f32` and the
sample is `(radians.sin() * volume as f32) as i16`. -/
def sineSample (frequency volume sampling_rate : ℕ) (t : ℕ) : ℤ :=
  i16OfReal (Real.sin ((t * 2 * Real.pi * frequency) / sampling_rate) * volume)

/-- The `for t in 0..number_samples` loop of `gen_sine_wave`, pushing
each sample twice (left then right channel, src/main.rs lines 328-336),
as a recursion on the number of remaining iterations. -/
def sineLoop (frequency volume sampling_rate : ℕ) : ℕ → ℕ → List ℤ
  | 0, _ => []
  | n + 1, t =>
    sineSample frequency volume sampling_rate t ::
      sineSample frequency volume sampling_rate t ::
        sineLoop frequency volume sampling_rate n (t + 1)

/-- `gen_sine_wave` (src/main.rs lines 325-339). -/
def gen_sine_wave (frequency number_samples volume sampling_rate : ℕ) : List ℤ :=
  sineLoop frequency volume sampling_rate number_samples 0

/-- Closed form of the sine loop: starting the loop at index `t` with
`n` iterations left yields the `2*n`-entry list whose `i`-th entry is
the sample for index `t + i / 2`. -/
lemma sineLoop_eq_map (f v r : ℕ) :
    ∀ n t, sineLoop f v r n t
      = (List.range (2 * n)).map (fun i => sineSample f v r (t + i / 2)) := by
  intro n
  induction n with
  | zero => intro t; rfl
  | succ m ih =>
    intro t
    have e1 : 2 * (m + 1) = 2 * m + 1 + 1 := by ring
    rw [e1, List.range_succ_eq_map, List.range_succ_eq_map]
    simp only [List.map_cons, List.map_map, sineLoop]
    rw [ih (t + 1)]
    refine congrArg₂ _ (by norm_num) (congrArg₂ _ (by norm_num) ?_)
    refine List.map_congr_left ?_
    intro i _
    simp only [Function.comp_apply]
    congr 1
    omega

/-- The buffer produced by `gen_sine_wave` is the `2*N`-entry list whose
`i`-th entry is the sample for per-channel index `i / 2`. -/
lemma gen_sine_wave_eq_map (f N v r : ℕ) :
    gen_sine_wave f N v r
      = (List.range (2 * N)).map (fun i => sineSample f v r (i / 2)) := by
  rw [gen_sine_wave, sineLoop_eq_map]
  simp

lemma i16OfReal_zero : i16OfReal 0 = 0 := by
  simp [i16OfReal, truncTZ]

lemma sineSample_zero (f v r : ℕ) : sineSample f v r 0 = 0 := by
  simp [sineSample, i16OfReal_zero]

/-- C1: for a call of the sine generator with frequency `f`, sample
count `N`, volume `v` and sampling rate `r`, the sample at per-channel
index `t < N` (buffer position `2*t`) is `v * sin (2*pi*f*t/r)` cast to
`i16`, the cast truncating toward zero (not rounding) wherever its
argument is in the `i16` range; in particular the sample at index 0 is
`0` for every frequency and volume. -/
theorem sine_sample_value (f N v r t : ℕ) (ht : t < N) :
    (gen_sine_wave f N v r)[2 * t]?
        = some (i16OfReal ((v : ℝ) * Real.sin (2 * Real.pi * f * t / r)))
    ∧ (gen_sine_wave f N v r)[0]? = some 0
    ∧ (∀ x : ℝ, -32768 ≤ x → x ≤ 32767 → i16OfReal x = truncTZ x) := by
  have hrep := gen_sine_wave_eq_map f N v r
  have hlt : 2 * t < 2 * N := by omega
  have h0 : 0 < 2 * N := by omega
  refine ⟨?_, ?_, ?_⟩
  · rw [hrep, List.getElem?_map, List.getElem?_range hlt]
    simp only [Option.map_some']
    have ht2 : 2 * t / 2 = t := by omega
    rw [ht2]
    unfold sineSample
    have harg : ((t : ℝ) * 2 * Real.pi * (f : ℝ)) / (r : ℝ)
        = 2 * Real.pi * (f : ℝ) * (t : ℝ) / (r : ℝ) := by ring
    rw [harg, mul_comm]
  · rw [hrep, List.getElem?_map, List.getElem?_range h0]
    simp [sineSample_zero]
  · intro x hlo hhi
    have htr : -32768 ≤ truncTZ x ∧ truncTZ x ≤ 32767 := by
      unfold truncTZ
      split
      · constructor
        · have : (0:ℤ) ≤ ⌊x⌋ := Int.floor_nonneg.mpr (by assumption)
          omega
        · have : ⌊x⌋ < 32768 := by
            rw [Int.floor_lt]
            exact lt_of_le_of_lt hhi (by norm_num)
          omega
      · rename_i hneg
        push_neg at hneg
        constructor
        · have : ⌊-x⌋ ≤ 32768 := by
            have : ⌊-x⌋ < 32769 := by
              rw [Int.floor_lt]
              have : -x ≤ 32768 := by linarith
              exact lt_of_le_of_lt this (by norm_num)
            omega
          omega
        · have : (0:ℤ) ≤ ⌊-x⌋ := Int.floor_nonneg.mpr (by linarith)
          omega
    unfold i16OfReal
    omega

/-- Witness for C1 at frequency 432, one sample, volume 1000, sampling
rate 44100: the first stereo frame value is 0. -/
theorem sine_sample_value_witness :
    (gen_sine_wave 432 1 1000 44100)[0]? = some 0 :=
  (sine_sample_value 432 1 1000 44100 0 (by decide)).2.1

/-- The sample value pushed for loop index `t` of `gen_sweep_wave` at
current accumulator value `sweep_frequency` (src/main.rs lines
364-365). -/
def sweepSample (volume sampling_rate : ℕ) (t : ℕ) (sweep_frequency : ℝ) : ℤ :=
  i16OfReal (Real.sin ((t * 2 * Real.pi * sweep_frequency) / sampling_rate) * volume)

/-- The `for t in 0..number_samples` loop of `gen_sweep_wave`
(src/main.rs lines 363-374): each iteration pushes the sample twice and
then adds `frequency_increment` to the mutable accumulator
`sweep_frequency`, modelled as explicit state passing. -/
def sweepLoop (volume sampling_rate : ℕ) (frequency_increment : ℝ) :
    ℕ → ℕ → ℝ → List ℤ
  | 0, _, _ => []
  | n + 1, t, sweep_frequency =>
    sweepSample volume sampling_rate t sweep_frequency ::
      sweepSample volume sampling_rate t sweep_frequency ::
        sweepLoop volume sampling_rate frequency_increment n (t + 1)
          (sweep_frequency + frequency_increment)

/-- `gen_sweep_wave` (src/main.rs lines 351-377): the increment is
`(finish as f32 - start as f32) / number_samples as f32` and the
accumulator starts at `start as f32`. -/
def gen_sweep_wave (start finish number_samples volume sampling_rate : ℕ) : List ℤ :=
  sweepLoop volume sampling_rate (((finish : ℝ) - (start : ℝ)) / (number_samples : ℝ))
    number_samples 0 (start : ℝ)

/-- Closed form of the sweep loop: over the reals the additively
accumulated frequency at iteration `k` equals the initial frequency
plus `k` increments. -/
lemma sweepLoop_eq_map (v r : ℕ) (inc : ℝ) :
    ∀ n t freq, sweepLoop v r inc n t freq
      = (List.range (2 * n)).map
          (fun i => sweepSample v r (t + i / 2) (freq + ((i / 2 : ℕ) : ℝ) * inc)) := by
  intro n
  induction n with
  | zero => intro t freq; rfl
  | succ m ih =>
    intro t freq
    have e1 : 2 * (m + 1) = 2 * m + 1 + 1 := by ring
    rw [e1, List.range_succ_eq_map, List.range_succ_eq_map]
    simp only [List.map_cons, List.map_map, sweepLoop]
    rw [ih (t + 1) (freq + inc)]
    refine congrArg₂ _ (by norm_num) (congrArg₂ _ (by norm_num) ?_)
    refine List.map_congr_left ?_
    intro i _
    simp only [Function.comp_apply]
    have hdiv : (i + 1 + 1) / 2 = i / 2 + 1 := by omega
    have harg1 : t + 1 + i / 2 = t + (i + 1 + 1) / 2 := by omega
    have harg2 : freq + ((i + 1 + 1) / 2 : ℕ) * inc
        = freq + inc + ((i / 2 : ℕ) : ℝ) * inc := by
      rw [hdiv]
      push_cast
      ring
    rw [← harg1, harg2]

lemma sweepSample_zero (v r : ℕ) (freq : ℝ) : sweepSample v r 0 freq = 0 := by
  simp [sweepSample, i16OfReal_zero]

/-- C2: the sweep generator's per-sample frequency increment is
`(finish - start) / number_samples`, applied additively once per
iteration to an accumulator initialised to `start` (the recursion
`sweepLoop` carries the accumulator explicitly rather than recomputing
it in closed form); hence the first sample is generated at effective
frequency `start`, and its value is 0. -/
theorem sweep_increment_and_first_sample (start finish N v r : ℕ) (hN : 0 < N) :
    gen_sweep_wave start finish N v r
        = sweepLoop v r (((finish : ℝ) - (start : ℝ)) / (N : ℝ)) N 0 (start : ℝ)
    ∧ (∀ (inc : ℝ) (n t : ℕ) (freq : ℝ),
        sweepLoop v r inc (n + 1) t freq
          = sweepSample v r t freq :: sweepSample v r t freq ::
              sweepLoop v r inc n (t + 1) (freq + inc))
    ∧ (gen_sweep_wave start finish N v r)[0]? = some (sweepSample v r 0 (start : ℝ))
    ∧ sweepSample v r 0 (start : ℝ) = 0 := by
  refine ⟨rfl, fun inc n t freq => rfl, ?_, sweepSample_zero v r _⟩
  rw [gen_sweep_wave, sweepLoop_eq_map]
  have h0 : 0 < 2 * N := by omega
  rw [List.getElem?_map, List.getElem?_range h0]
  simp

/-- Witness for C2: the first sample of a 100-to-2000 hertz sweep over
5 samples at volume 1000 and sampling rate 44100 is 0. -/
theorem sweep_increment_and_first_sample_witness :
    (gen_sweep_wave 100 2000 5 1000 44100)[0]?
      = some (sweepSample 1000 44100 0 (100 : ℝ)) :=
  (sweep_increment_and_first_sample 100 2000 5 1000 44100 (by decide)).2.2.1

/-- The per-harmonic sine layer of `gen_harmonics` (src/main.rs lines
388-393 and 396-401): `gen_sine_wave` called with the harmonic's
frequency cast `as u32` and with `(amplitude * volume as f32) as u16`
as the effective volume. -/
def harmonicLayer (number_samples volume sampling_rate : ℕ) (h : Harmonic) : List ℤ :=
  gen_sine_wave (u32OfReal h.frequency) number_samples
    (u16OfReal (h.amplitude * (volume : ℝ))) sampling_rate

/-- The fixed-width `i16` addition `data[i] + overlay_data[i]` of the
overlay loop (src/main.rs line 404): two's-complement wrapping on the
signed 16-bit range, the release-mode semantics of the source's
unchecked `+`. -/
def i16WrapAdd (a b : ℤ) : ℤ := (a + b + 32768) % 65536 - 32768

/-- `gen_harmonics` (src/main.rs lines 380-411): the first harmonic's
layer is the initial buffer, every further harmonic's layer is added
into it element by element with the fixed-width wrapping `i16`
addition `i16WrapAdd`; an empty set returns `Err(NoHarmonics)`. -/
def gen_harmonics (harmonics_set : List Harmonic)
    (number_samples volume sampling_rate : ℕ) : Except WavGenError (List ℤ) :=
  match harmonics_set with
  | [] => Except.error WavGenError.NoHarmonics
  | h :: rest =>
    Except.ok (rest.foldl
      (fun data overlay_h =>
        List.zipWith (fun a b => i16WrapAdd a b) data
          (harmonicLayer number_samples volume sampling_rate overlay_h))
      (harmonicLayer number_samples volume sampling_rate h))

/-- `normalise_harmonics` (src/main.rs lines 491-500): sums the
amplitudes with a running accumulator, then divides every amplitude by
the sum in place. -/
def normalise_harmonics (harmonics_set : List Harmonic) : List Harmonic :=
  let sum := harmonics_set.foldl (fun s h => s + h.amplitude) 0
  harmonics_set.map (fun h => { h with amplitude := h.amplitude / sum })

/-- The per-channel sample of one harmonic's layer at index `t`. -/
def layerSample (volume sampling_rate : ℕ) (h : Harmonic) (t : ℕ) : ℤ :=
  sineSample (u32OfReal h.frequency) (u16OfReal (h.amplitude * (volume : ℝ)))
    sampling_rate t

lemma harmonicLayer_eq_map (N v r : ℕ) (h : Harmonic) :
    harmonicLayer N v r h
      = (List.range (2 * N)).map (fun i => layerSample v r h (i / 2)) := by
  rw [harmonicLayer, gen_sine_wave_eq_map]
  rfl

lemma zipWith_op_map {α : Type} (F : ℤ → ℤ → ℤ) (l : List α) (p q : α → ℤ) :
    List.zipWith (fun a b => F a b) (l.map p) (l.map q)
      = l.map (fun i => F (p i) (q i)) := by
  induction l with
  | nil => rfl
  | cons a tl ih => simp [ih]

/-- The overlay fold of `gen_harmonics`, run on a buffer in mapped
form, accumulates the overlay layers pointwise with the wrapping `i16`
addition. -/
lemma foldl_overlay (rest : List Harmonic) (N v r : ℕ) (base : ℕ → ℤ) :
    rest.foldl
        (fun data overlay_h =>
          List.zipWith (fun a b => i16WrapAdd a b) data
            (harmonicLayer N v r overlay_h))
        ((List.range (2 * N)).map base)
      = (List.range (2 * N)).map
          (fun i => rest.foldl
            (fun acc h => i16WrapAdd acc (layerSample v r h (i / 2))) (base i)) := by
  induction rest generalizing base with
  | nil => simp
  | cons oh tl ih =>
    rw [List.foldl_cons, harmonicLayer_eq_map, zipWith_op_map, ih]
    refine List.map_congr_left ?_
    intro i _
    rw [List.foldl_cons]

/-- On a non-empty harmonic set the generated buffer is, at position
`i`, the wrapping `i16` accumulation of the remaining harmonics'
truncated sine layer samples onto the first harmonic's, all at
per-channel index `i / 2`. -/
lemma gen_harmonics_cons (h0 : Harmonic) (rest : List Harmonic) (N v r : ℕ) :
    gen_harmonics (h0 :: rest) N v r
      = Except.ok ((List.range (2 * N)).map
          (fun i => rest.foldl
            (fun acc h => i16WrapAdd acc (layerSample v r h (i / 2)))
            (layerSample v r h0 (i / 2)))) := by
  rw [gen_harmonics, harmonicLayer_eq_map, foldl_overlay]

/-- Both entries of a stereo frame of a buffer in mapped form. -/
lemma map_range_halved_pair (G : ℕ → ℤ) (N k : ℕ) (hk : k < N) :
    ((List.range (2 * N)).map (fun i => G (i / 2)))[2 * k]? = some (G k)
    ∧ ((List.range (2 * N)).map (fun i => G (i / 2)))[2 * k + 1]? = some (G k) := by
  have h1 : 2 * k < 2 * N := by omega
  have h2 : 2 * k + 1 < 2 * N := by omega
  constructor
  · rw [List.getElem?_map, List.getElem?_range h1, Option.map_some']
    have hdk : 2 * k / 2 = k := by omega
    rw [hdk]
  · rw [List.getElem?_map, List.getElem?_range h2, Option.map_some']
    have hdk : (2 * k + 1) / 2 = k := by omega
    rw [hdk]

/-- C3: every generator produces a buffer of `number_samples * 2`
entries (the channel count is fixed at 2 in the source, src/main.rs
lines 243, 269 and 299), and positions `2*k` and `2*k+1` always hold
identical values: no stereo separation is ever produced. -/
theorem buffer_length_and_interleaving (f start finish N v r : ℕ)
    (hs : List Harmonic) (data : List ℤ)
    (hok : gen_harmonics hs N v r = Except.ok data) :
    (gen_sine_wave f N v r).length = N * 2
    ∧ (gen_sweep_wave start finish N v r).length = N * 2
    ∧ data.length = N * 2
    ∧ (∀ k, k < N →
        (gen_sine_wave f N v r)[2 * k]? = (gen_sine_wave f N v r)[2 * k + 1]?)
    ∧ (∀ k, k < N →
        (gen_sweep_wave start finish N v r)[2 * k]?
          = (gen_sweep_wave start finish N v r)[2 * k + 1]?)
    ∧ (∀ k, k < N → data[2 * k]? = data[2 * k + 1]?) := by
  obtain ⟨h0, rest, rfl⟩ : ∃ h0 rest, hs = h0 :: rest := by
    cases hs with
    | nil =>
      rw [gen_harmonics] at hok
      exact absurd hok (by simp)
    | cons a l => exact ⟨a, l, rfl⟩
  rw [gen_harmonics_cons] at hok
  have hdata : data = (List.range (2 * N)).map
      (fun i => rest.foldl
        (fun acc h => i16WrapAdd acc (layerSample v r h (i / 2)))
        (layerSample v r h0 (i / 2))) := by
    injection hok with h
    exact h.symm
  have hsine := gen_sine_wave_eq_map f N v r
  have hsweep : gen_sweep_wave start finish N v r
      = (List.range (2 * N)).map
          (fun i => sweepSample v r (0 + i / 2)
            ((start : ℝ) + ((i / 2 : ℕ) : ℝ)
              * (((finish : ℝ) - (start : ℝ)) / (N : ℝ)))) := by
    rw [gen_sweep_wave, sweepLoop_eq_map]
  refine ⟨?_, ?_, ?_, ?_, ?_, ?_⟩
  · rw [hsine, List.length_map, List.length_range]; omega
  · rw [hsweep, List.length_map, List.length_range]; omega
  · rw [hdata, List.length_map, List.length_range]; omega
  · intro k hk
    rw [hsine]
    have h := map_range_halved_pair (fun kk => sineSample f v r kk) N k hk
    exact h.1.trans h.2.symm
  · intro k hk
    rw [hsweep]
    have h := map_range_halved_pair
      (fun kk => sweepSample v r (0 + kk)
        ((start : ℝ) + (kk : ℝ) * (((finish : ℝ) - (start : ℝ)) / (N : ℝ)))) N k hk
    exact h.1.trans h.2.symm
  · intro k hk
    rw [hdata]
    have h := map_range_halved_pair
      (fun kk => rest.foldl
        (fun acc h => i16WrapAdd acc (layerSample v r h kk))
        (layerSample v r h0 kk)) N k hk
    exact h.1.trans h.2.symm

/-- Witness for C3 on a one-harmonic set, one sample, volume 1000,
sampling rate 44100: the sine buffer has 1 * 2 entries. -/
theorem buffer_length_and_interleaving_witness :
    (gen_sine_wave 432 1 1000 44100).length = 1 * 2 :=
  (buffer_length_and_interleaving 432 100 2000 1 1000 44100
    [⟨1, 1⟩] [0, 0]
    (by simp [gen_harmonics, harmonicLayer, gen_sine_wave, sineLoop,
      sineSample_zero])).1

/-- C4: `gen_harmonics` fails with `NoHarmonics` exactly on the empty
harmonic set; the failure returns no buffer at all (the error is the
whole result), and every non-empty set yields a buffer. -/
theorem harmonics_empty_error_iff (hs : List Harmonic) (N v r : ℕ) :
    (hs = [] → gen_harmonics hs N v r = Except.error WavGenError.NoHarmonics)
    ∧ (hs ≠ [] → ∃ data, gen_harmonics hs N v r = Except.ok data)
    ∧ (∀ e, gen_harmonics hs N v r = Except.error e
        → e = WavGenError.NoHarmonics ∧ hs = []) := by
  cases hs with
  | nil =>
    refine ⟨fun _ => rfl, fun hne => absurd rfl hne, ?_⟩
    intro e he
    rw [gen_harmonics] at he
    injection he with h
    exact ⟨h.symm, rfl⟩
  | cons h0 rest =>
    refine ⟨?_, ?_, ?_⟩
    · intro h
      exact absurd h (List.cons_ne_nil h0 rest)
    · intro _
      exact ⟨_, rfl⟩
    · intro e he
      rw [gen_harmonics] at he
      exact absurd he (by simp)

/-- Witness for C4: the empty set fails with `NoHarmonics`. -/
theorem harmonics_empty_error_iff_witness :
    gen_harmonics [] 44100 1000 44100 = Except.error WavGenError.NoHarmonics :=
  (harmonics_empty_error_iff [] 44100 1000 44100).1 rfl

/-- The running-accumulator amplitude sum of `normalise_harmonics`
equals the list sum of the amplitudes. -/
lemma foldl_add_amplitude (hs : List Harmonic) :
    ∀ s : ℝ, hs.foldl (fun a h => a + h.amplitude) s
      = s + (hs.map Harmonic.amplitude).sum := by
  induction hs with
  | nil => intro s; simp
  | cons h tl ih =>
    intro s
    rw [List.foldl_cons, ih, List.map_cons, List.sum_cons]
    ring

lemma sum_map_div_amplitude (hs : List Harmonic) (S : ℝ) :
    (hs.map (fun h => h.amplitude / S)).sum
      = (hs.map Harmonic.amplitude).sum / S := by
  induction hs with
  | nil => simp
  | cons h tl ih => simp [ih, add_div]

/-- C5: on a non-empty set of positive amplitudes the normaliser
divides every amplitude in place by the amplitude sum, after which the
amplitudes sum to exactly 1 (over the reals, hence within any floating
tolerance) and pairwise amplitude ratios are unchanged. -/
theorem normalise_sum_one_and_ratios (hs : List Harmonic) (hne : hs ≠ [])
    (hpos : ∀ h ∈ hs, 0 < h.amplitude) :
    normalise_harmonics hs
        = hs.map (fun h =>
            { h with amplitude := h.amplitude / (hs.map Harmonic.amplitude).sum })
    ∧ ((normalise_harmonics hs).map Harmonic.amplitude).sum = 1
    ∧ (∀ i j, i < hs.length → j < hs.length →
        ((normalise_harmonics hs).getD i ⟨0, 0⟩).amplitude
            / ((normalise_harmonics hs).getD j ⟨0, 0⟩).amplitude
          = (hs.getD i ⟨0, 0⟩).amplitude / (hs.getD j ⟨0, 0⟩).amplitude) := by
  have hS : 0 < (hs.map Harmonic.amplitude).sum := by
    refine List.sum_pos _ ?_ ?_
    · intro x hx
      obtain ⟨h, hh, rfl⟩ := List.mem_map.mp hx
      exact hpos h hh
    · intro hmap
      exact hne (List.map_eq_nil_iff.mp hmap)
  have hrepr : normalise_harmonics hs
      = hs.map (fun h =>
          { h with amplitude := h.amplitude / (hs.map Harmonic.amplitude).sum }) := by
    rw [normalise_harmonics]
    rw [foldl_add_amplitude, zero_add]
  have hlen : (normalise_harmonics hs).length = hs.length := by
    rw [hrepr, List.length_map]
  refine ⟨hrepr, ?_, ?_⟩
  · rw [hrepr, List.map_map]
    have : (Harmonic.amplitude ∘ fun h : Harmonic =>
        { h with amplitude := h.amplitude / (hs.map Harmonic.amplitude).sum })
        = fun h : Harmonic => h.amplitude / (hs.map Harmonic.amplitude).sum := rfl
    rw [this, sum_map_div_amplitude, div_self hS.ne']
  · intro i j hi hj
    have hi2 : i < (normalise_harmonics hs).length := by omega
    have hj2 : j < (normalise_harmonics hs).length := by omega
    rw [List.getD_eq_getElem _ _ hi2, List.getD_eq_getElem _ _ hj2,
      List.getD_eq_getElem _ _ hi, List.getD_eq_getElem _ _ hj]
    have hgi : (normalise_harmonics hs)[i] = { hs[i] with
        amplitude := hs[i].amplitude / (hs.map Harmonic.amplitude).sum } := by
      simp only [hrepr]
      rw [List.getElem_map]
    have hgj : (normalise_harmonics hs)[j] = { hs[j] with
        amplitude := hs[j].amplitude / (hs.map Harmonic.amplitude).sum } := by
      simp only [hrepr]
      rw [List.getElem_map]
    rw [hgi, hgj]
    have hbj : hs[j].amplitude ≠ 0 := (hpos _ (hs.getElem_mem _)).ne'
    field_simp

/-- Witness for C5 on the set with single harmonic (100 Hz, amplitude
2): the normalised amplitudes sum to 1. -/
theorem normalise_sum_one_and_ratios_witness :
    ((normalise_harmonics [⟨100, 2⟩]).map Harmonic.amplitude).sum = 1 :=
  (normalise_sum_one_and_ratios [⟨100, 2⟩] (by simp)
    (by
      intro h hh
      simp only [List.mem_singleton] at hh
      rw [hh]
      norm_num)).2.1

lemma i16OfReal_range (x : ℝ) :
    -32768 ≤ i16OfReal x ∧ i16OfReal x ≤ 32767 := by
  unfold i16OfReal
  exact ⟨le_max_left _ _, max_le (by norm_num) (min_le_left _ _)⟩

/-- Every emitted layer sample is already clamped into the `i16`
range by the saturating cast. -/
lemma layerSample_range (v r : ℕ) (h : Harmonic) (k : ℕ) :
    -32768 ≤ layerSample v r h k ∧ layerSample v r h k ≤ 32767 :=
  i16OfReal_range _

lemma i16WrapAdd_mod (a b : ℤ) :
    i16WrapAdd a b % 65536 = (a + b) % 65536 := by
  unfold i16WrapAdd
  omega

lemma i16WrapAdd_range (a b : ℤ) :
    -32768 ≤ i16WrapAdd a b ∧ i16WrapAdd a b ≤ 32767 := by
  unfold i16WrapAdd
  omega

/-- The wrapping accumulation of a list of layers onto an in-range base
stays in the `i16` range and is congruent, modulo `2^16`, to the exact
sum of the base and the layers.  Hence it is the unique in-range
representative of that sum and depends only on the multiset of
layers. -/
lemma foldl_wrapAdd_layers (v r : ℕ) (l : List Harmonic) (k : ℕ) :
    ∀ base : ℤ, -32768 ≤ base → base ≤ 32767 →
      (l.foldl (fun acc h => i16WrapAdd acc (layerSample v r h k)) base) % 65536
          = (base + (l.map (fun h => layerSample v r h k)).sum) % 65536
      ∧ -32768 ≤ l.foldl (fun acc h => i16WrapAdd acc (layerSample v r h k)) base
      ∧ l.foldl (fun acc h => i16WrapAdd acc (layerSample v r h k)) base ≤ 32767 := by
  induction l with
  | nil =>
    intro base h1 h2
    exact ⟨by simp, h1, h2⟩
  | cons x tl ih =>
    intro base h1 h2
    rw [List.foldl_cons]
    have hr := i16WrapAdd_range base (layerSample v r x k)
    have hm := i16WrapAdd_mod base (layerSample v r x k)
    have IH := ih (i16WrapAdd base (layerSample v r x k)) hr.1 hr.2
    refine ⟨?_, IH.2.1, IH.2.2⟩
    rw [IH.1, List.map_cons, List.sum_cons]
    omega

/-- C8: each per-harmonic layer is truncated to `i16` before the
layers are accumulated with the wrapping `i16` addition; the result is
the unique in-range value congruent to the layers' sum modulo `2^16`,
so permuting the harmonic rows leaves every sample unchanged; in
particular each sample moves by at most 1 unit. -/
theorem harmonics_permutation_invariant (hs hs2 : List Harmonic) (N v r : ℕ)
    (hperm : hs.Perm hs2) (hne : hs ≠ [])
    (data data2 : List ℤ)
    (hok : gen_harmonics hs N v r = Except.ok data)
    (hok2 : gen_harmonics hs2 N v r = Except.ok data2) (i : ℕ) :
    |data.getD i 0 - data2.getD i 0| ≤ 1 := by
  have hdd : data = data2 := by
    obtain ⟨h0, rest, rfl⟩ : ∃ h0 rest, hs = h0 :: rest := by
      cases hs with
      | nil => exact absurd rfl hne
      | cons a l => exact ⟨a, l, rfl⟩
    obtain ⟨g0, rest2, rfl⟩ : ∃ g0 rest2, hs2 = g0 :: rest2 := by
      cases hs2 with
      | nil => exact absurd (List.Perm.eq_nil hperm) (List.cons_ne_nil h0 rest)
      | cons a l => exact ⟨a, l, rfl⟩
    rw [gen_harmonics_cons] at hok hok2
    injection hok with h1
    injection hok2 with h2
    rw [← h1, ← h2]
    refine List.map_congr_left ?_
    intro j _
    have hr1 := layerSample_range v r h0 (j / 2)
    have hr2 := layerSample_range v r g0 (j / 2)
    have hA := foldl_wrapAdd_layers v r rest (j / 2)
      (layerSample v r h0 (j / 2)) hr1.1 hr1.2
    have hB := foldl_wrapAdd_layers v r rest2 (j / 2)
      (layerSample v r g0 (j / 2)) hr2.1 hr2.2
    have hsum : layerSample v r h0 (j / 2)
          + (rest.map (fun h => layerSample v r h (j / 2))).sum
        = layerSample v r g0 (j / 2)
          + (rest2.map (fun h => layerSample v r h (j / 2))).sum := by
      have hp := List.Perm.sum_eq (hperm.map (fun h => layerSample v r h (j / 2)))
      rw [List.map_cons, List.sum_cons, List.map_cons, List.sum_cons] at hp
      exact hp
    obtain ⟨hA1, hA2, hA3⟩ := hA
    obtain ⟨hB1, hB2, hB3⟩ := hB
    rw [hsum] at hA1
    omega
  rw [hdd, sub_self, abs_zero]
  norm_num

/-- Witness for C8: swapping the two rows of a two-harmonic set over an
empty sample range leaves the (empty) buffers identical. -/
theorem harmonics_permutation_invariant_witness :
    |([] : List ℤ).getD 0 0 - ([] : List ℤ).getD 0 0| ≤ 1 :=
  harmonics_permutation_invariant [⟨1, 1⟩, ⟨2, 1⟩] [⟨2, 1⟩, ⟨1, 1⟩] 0 1000 44100
    (List.Perm.swap (⟨2, 1⟩ : Harmonic) (⟨1, 1⟩ : Harmonic) [])
    (by simp) [] [] rfl rfl 0

/-- C10: on a non-empty set, each harmonic's layer is synthesized from
the harmonic's frequency cast `as u32` and from `amplitude * volume`
cast `as u16`; both casts truncate toward zero, so a fractional
frequency or effective volume loses its fractional part silently. -/
theorem harmonics_truncation (h0 : Harmonic) (rest : List Harmonic) (N v r : ℕ) :
    gen_harmonics (h0 :: rest) N v r
      = Except.ok ((List.range (2 * N)).map (fun i =>
          rest.foldl
            (fun acc h => i16WrapAdd acc
              (sineSample (u32OfReal h.frequency)
                (u16OfReal (h.amplitude * (v : ℝ))) r (i / 2)))
            (sineSample (u32OfReal h0.frequency)
              (u16OfReal (h0.amplitude * (v : ℝ))) r (i / 2))))
    ∧ (∀ x : ℝ, 0 ≤ x → x < 4294967296 → (u32OfReal x : ℤ) = ⌊x⌋)
    ∧ (∀ x : ℝ, 0 ≤ x → x < 65536 → (u16OfReal x : ℤ) = ⌊x⌋) := by
  refine ⟨gen_harmonics_cons h0 rest N v r, ?_, ?_⟩
  · intro x hx hlt
    have ht : truncTZ x = ⌊x⌋ := by rw [truncTZ, if_pos hx]
    have h0f : (0 : ℤ) ≤ ⌊x⌋ := Int.floor_nonneg.mpr hx
    have hfl : ⌊x⌋ < 4294967296 := by
      rw [Int.floor_lt]
      exact_mod_cast hlt
    rw [u32OfReal, ht]
    have hle : ⌊x⌋.toNat ≤ 4294967295 := by omega
    rw [min_eq_right hle]
    omega
  · intro x hx hlt
    have ht : truncTZ x = ⌊x⌋ := by rw [truncTZ, if_pos hx]
    have h0f : (0 : ℤ) ≤ ⌊x⌋ := Int.floor_nonneg.mpr hx
    have hfl : ⌊x⌋ < 65536 := by
      rw [Int.floor_lt]
      exact_mod_cast hlt
    rw [u16OfReal, ht]
    have hle : ⌊x⌋.toNat ≤ 65535 := by omega
    rw [min_eq_right hle]
    omega

/-- Witness for C10: the fractional frequency 500.5 is truncated to
500 on its way into the sine generator. -/
theorem harmonics_truncation_witness : (u32OfReal 500.5 : ℤ) = 500 := by
  have h := (harmonics_truncation ⟨500.5, 0.3⟩ [] 0 1000 44100).2.1 500.5
    (by norm_num) (by norm_num)
  rw [h]
  rw [Int.floor_eq_iff]
  norm_num

/-- An `f32` value for the paths where IEEE-754 non-finite values
matter: a finite value, a quiet NaN, or a signed infinity. -/
inductive F32 where
  | finite (x : ℝ)
  | nan
  | inf
  | negInf

/-- Whether an `f32` value is finite. -/
def F32.isFinite : F32 → Bool
  | .finite _ => true
  | _ => false

/-- IEEE-754 addition on `F32` as used by the `sum += h.amplitude`
accumulation (src/main.rs lines 493-495). -/
def F32.fadd : F32 → F32 → F32
  | .nan, _ => .nan
  | _, .nan => .nan
  | .finite a, .finite b => .finite (a + b)
  | .inf, .negInf => .nan
  | .negInf, .inf => .nan
  | .inf, _ => .inf
  | _, .inf => .inf
  | .negInf, _ => .negInf
  | _, .negInf => .negInf

/-- IEEE-754 division on `F32` as used by the unguarded
`h.amplitude = h.amplitude / sum` (src/main.rs line 498): a zero
divisor yields NaN for a zero dividend, a signed infinity otherwise. -/
def F32.fdiv : F32 → F32 → F32
  | .nan, _ => .nan
  | _, .nan => .nan
  | .finite a, .finite b =>
    if b = 0 then (if a = 0 then .nan else if 0 < a then .inf else .negInf)
    else .finite (a / b)
  | .finite _, .inf => .finite 0
  | .finite _, .negInf => .finite 0
  | .inf, .finite b => if b < 0 then .negInf else .inf
  | .negInf, .finite b => if b < 0 then .inf else .negInf
  | .inf, _ => .nan
  | .negInf, _ => .nan

/-- The amplitude updates of `normalise_harmonics` (src/main.rs lines
491-500) under IEEE-754 `f32` arithmetic: the amplitude sum is
accumulated from 0 and every amplitude is divided by it, with no guard
on a zero sum. -/
def normalise_harmonicsF (amplitudes : List F32) : List F32 :=
  let sum := amplitudes.foldl F32.fadd (F32.finite 0)
  amplitudes.map (fun a => F32.fdiv a sum)

lemma foldl_fadd_zeros (amps : List F32) (hzero : ∀ a ∈ amps, a = F32.finite 0) :
    ∀ x : ℝ, amps.foldl F32.fadd (F32.finite x) = F32.finite x := by
  induction amps with
  | nil => intro x; rfl
  | cons a tl ih =>
    intro x
    have ha : a = F32.finite 0 := hzero a (by simp)
    rw [List.foldl_cons, ha]
    have hstep : F32.fadd (F32.finite x) (F32.finite 0) = F32.finite x := by
      show F32.finite (x + 0) = F32.finite x
      rw [add_zero]
    rw [hstep]
    exact ih (fun b hb => hzero b (by simp [hb])) x

/-- C9: on a non-empty set whose amplitudes are all zero the normaliser
raises no error: it divides by the zero sum unguarded and every
resulting amplitude is NaN, a non-finite value handed on silently. -/
theorem normalise_zero_sum_nan (amps : List F32) (_hne : amps ≠ [])
    (hzero : ∀ a ∈ amps, a = F32.finite 0) :
    (normalise_harmonicsF amps).length = amps.length
    ∧ (∀ b ∈ normalise_harmonicsF amps, b = F32.nan ∧ b.isFinite = false) := by
  have hsum := foldl_fadd_zeros amps hzero 0
  have hnan : F32.fdiv (F32.finite 0) (F32.finite 0) = F32.nan := by
    simp [F32.fdiv]
  constructor
  · rw [normalise_harmonicsF, List.length_map]
  · intro b hb
    rw [normalise_harmonicsF] at hb
    simp only [hsum] at hb
    obtain ⟨a, ha, rfl⟩ := List.mem_map.mp hb
    rw [hzero a ha, hnan]
    exact ⟨rfl, rfl⟩

/-- Witness for C9 on the single zero amplitude: the normaliser returns
a same-length list (it does not fail). -/
theorem normalise_zero_sum_nan_witness :
    (normalise_harmonicsF [F32.finite 0]).length = [F32.finite 0].length :=
  (normalise_zero_sum_nan [F32.finite 0] (by simp) (by simp)).1

/-- The `number_samples` resolution of the `Sine` subcommand
(src/main.rs lines 223-237): wav output uses `duration * sampling_rate`
and ignores `--length`; rust output uses the explicit `--length` count
unchanged, and a missing length aborts argument processing (modelled as
`none`). No parity of the count is ever examined. -/
def resolveSineNumberSamples (output_type : OutputType) (duration : ℕ)
    (length : Option ℕ) (sampling_rate : ℕ) : Option ℕ :=
  match output_type with
  | OutputType.Wav => some (duration * sampling_rate)
  | OutputType.Rust =>
    match length with
    | some len => some len
    | none => none

/-- C6 counterexample: an explicit count of the odd length 7 is
accepted unchanged; the resolution does not fail, and `WavGenError`
(src/error.rs lines 5-11) has no `InvalidLength` variant at all. -/
theorem odd_explicit_count_accepted :
    resolveSineNumberSamples OutputType.Rust 5 (some 7) 44100 = some 7
    ∧ resolveSineNumberSamples OutputType.Rust 5 (some 7) 44100 ≠ none :=
  ⟨rfl, by decide⟩

/-- C6 amended: an explicit-count request (available only for the rust
output type, with no channel-layout option) is accepted for every
count, odd or even, and resolves to the count unchanged; the wav output
type resolves to `duration * sampling_rate`; the error type has only
the five variants `ReadError`, `WriteError`, `CreateError`,
`HarmonicParseError` and `NoHarmonics`, so no `InvalidLength` failure
exists. -/
theorem explicit_count_resolution (d len r : ℕ) :
    resolveSineNumberSamples OutputType.Rust d (some len) r = some len
    ∧ resolveSineNumberSamples OutputType.Wav d none r = some (d * r)
    ∧ (∀ e : WavGenError,
        (∃ p, e = WavGenError.ReadError p) ∨ (∃ p, e = WavGenError.WriteError p)
        ∨ (∃ p, e = WavGenError.CreateError p)
        ∨ (∃ n, e = WavGenError.HarmonicParseError n)
        ∨ e = WavGenError.NoHarmonics) := by
  refine ⟨rfl, rfl, ?_⟩
  intro e
  cases e with
  | ReadError p => exact Or.inl ⟨p, rfl⟩
  | WriteError p => exact Or.inr (Or.inl ⟨p, rfl⟩)
  | CreateError p => exact Or.inr (Or.inr (Or.inl ⟨p, rfl⟩))
  | HarmonicParseError n => exact Or.inr (Or.inr (Or.inr (Or.inl ⟨n, rfl⟩)))
  | NoHarmonics => exact Or.inr (Or.inr (Or.inr (Or.inr rfl)))

/-- Modelled from the spec: the revision under verification has no
`BySyncCycle` length policy in its code; spec section 4.1 defines the
fixed scale factor used to turn the generally non-integer sample
periods into integers. -/
def syncCycleScale : ℕ := 20000

/-- Modelled from the spec: resolution of the `BySyncCycle` length
policy per spec section 4.1: each per-frequency sample period
`rate / frequency` is scaled by `syncCycleScale` to recover integer
precision, the least common multiple of the scaled periods is computed
pairwise via GCD-based LCM, and the result is divided back by the
scale factor. -/
def resolveSyncCycle (frequencies : List ℕ) (sampling_rate : ℕ) : ℕ :=
  ((frequencies.map (fun f => sampling_rate * syncCycleScale / f)).foldr Nat.lcm 1)
    / syncCycleScale

lemma dvd_foldr_lcm (l : List ℕ) (x : ℕ) (hx : x ∈ l) : x ∣ l.foldr Nat.lcm 1 := by
  induction l with
  | nil => cases hx
  | cons a tl ih =>
    rw [List.foldr_cons]
    rcases List.mem_cons.mp hx with h | h
    · rw [h]
      exact Nat.dvd_lcm_left _ _
    · exact (ih h).trans (Nat.dvd_lcm_right _ _)

lemma foldr_lcm_dvd (l : List ℕ) (m : ℕ) (hm : ∀ x ∈ l, x ∣ m) :
    l.foldr Nat.lcm 1 ∣ m := by
  induction l with
  | nil => exact one_dvd m
  | cons a tl ih =>
    rw [List.foldr_cons]
    exact Nat.lcm_dvd (hm a (by simp)) (ih (fun x hx => hm x (by simp [hx])))

lemma foldr_lcm_pos (l : List ℕ) (hl : ∀ x ∈ l, 0 < x) :
    0 < l.foldr Nat.lcm 1 := by
  induction l with
  | nil => norm_num
  | cons a tl ih =>
    rw [List.foldr_cons]
    have ha : a ≠ 0 := (hl a (by simp)).ne'
    have ht : tl.foldr Nat.lcm 1 ≠ 0 :=
      (ih (fun x hx => hl x (by simp [hx]))).ne'
    exact Nat.pos_of_ne_zero (Nat.lcm_ne_zero ha ht)

/-- C7: (spec-modelled) the synchronized-cycle policy returns the
smallest positive sample count divided by every per-frequency sample
period `rate / frequency` (every frequency completes a whole number of
cycles), i.e. the least common multiple of the periods; in particular
frequencies 100 and 250 at sampling rate 1000 resolve to 20. -/
theorem sync_cycle_lcm (freqs : List ℕ) (rate : ℕ) (hne : freqs ≠ [])
    (hrate : 0 < rate) (hf : ∀ f ∈ freqs, 0 < f ∧ f ∣ rate) :
    (∀ f ∈ freqs, (rate / f) ∣ resolveSyncCycle freqs rate)
    ∧ 0 < resolveSyncCycle freqs rate
    ∧ (∀ m, 0 < m → (∀ f ∈ freqs, (rate / f) ∣ m)
        → resolveSyncCycle freqs rate ≤ m)
    ∧ resolveSyncCycle [100, 250] 1000 = 20 := by
  have hc : 0 < syncCycleScale := by norm_num [syncCycleScale]
  have hscaled : ∀ f ∈ freqs,
      rate * syncCycleScale / f = (rate / f) * syncCycleScale := by
    intro f hfm
    obtain ⟨hfpos, p, hp⟩ := hf f hfm
    rw [hp, Nat.mul_div_cancel_left p hfpos, mul_assoc,
      Nat.mul_div_cancel_left _ hfpos]
  have hppos : ∀ f ∈ freqs, 0 < rate / f := by
    intro f hfm
    obtain ⟨hfpos, hdvd⟩ := hf f hfm
    exact Nat.div_pos (Nat.le_of_dvd hrate hdvd) hfpos
  have hLpos : 0 < (freqs.map (fun f => rate * syncCycleScale / f)).foldr Nat.lcm 1 := by
    refine foldr_lcm_pos _ ?_
    intro x hx
    obtain ⟨f, hfm, rfl⟩ := List.mem_map.mp hx
    rw [hscaled f hfm]
    exact Nat.mul_pos (hppos f hfm) hc
  have hcL : syncCycleScale ∣
      (freqs.map (fun f => rate * syncCycleScale / f)).foldr Nat.lcm 1 := by
    obtain ⟨f0, hf0⟩ : ∃ f0, f0 ∈ freqs := by
      cases freqs with
      | nil => exact absurd rfl hne
      | cons a l => exact ⟨a, by simp⟩
    have hmem : rate * syncCycleScale / f0
        ∈ freqs.map (fun f => rate * syncCycleScale / f) :=
      List.mem_map_of_mem _ hf0
    refine Dvd.dvd.trans ?_ (dvd_foldr_lcm _ _ hmem)
    rw [hscaled f0 hf0]
    exact dvd_mul_left syncCycleScale (rate / f0)
  have hLM : (freqs.map (fun f => rate * syncCycleScale / f)).foldr Nat.lcm 1
      = syncCycleScale * resolveSyncCycle freqs rate := by
    rw [resolveSyncCycle]
    exact (Nat.mul_div_cancel' hcL).symm
  refine ⟨?_, ?_, ?_, ?_⟩
  · intro f hfm
    have hd : (rate / f) * syncCycleScale ∣
        (freqs.map (fun f2 => rate * syncCycleScale / f2)).foldr Nat.lcm 1 := by
      refine Dvd.dvd.trans ?_ (dvd_foldr_lcm _ _ (List.mem_map_of_mem _ hfm))
      rw [hscaled f hfm]
    rw [hLM, mul_comm (rate / f) syncCycleScale] at hd
    exact (Nat.mul_dvd_mul_iff_left hc).mp hd
  · have hpos := hLpos
    rw [hLM] at hpos
    have hc20 : syncCycleScale = 20000 := rfl
    rw [hc20] at hpos
    omega
  · intro m hm hmdvd
    have hLdvd : (freqs.map (fun f => rate * syncCycleScale / f)).foldr Nat.lcm 1
        ∣ syncCycleScale * m := by
      refine foldr_lcm_dvd _ _ ?_
      intro x hx
      obtain ⟨f, hfm, rfl⟩ := List.mem_map.mp hx
      rw [hscaled f hfm, mul_comm (rate / f) syncCycleScale]
      exact Nat.mul_dvd_mul_left _ (hmdvd f hfm)
    rw [hLM] at hLdvd
    exact Nat.le_of_dvd hm ((Nat.mul_dvd_mul_iff_left hc).mp hLdvd)
  · norm_num [resolveSyncCycle, syncCycleScale]

/-- Witness for C7: frequencies 100 and 250 at sampling rate 1000
resolve to 20 samples. -/
theorem sync_cycle_lcm_witness : resolveSyncCycle [100, 250] 1000 = 20 :=
  (sync_cycle_lcm [100, 250] 1000 (by simp) (by norm_num)
    (by decide)).2.2.2

end

end WavGen
